import Mathlib

/-!
Verification of the template helper functions of the openshift-router
repository (file `pkg/router/template/template_helper.go`).

The Go code is shallowly embedded: Go structs become Lean structures,
Go maps become association lists or `String → Option _` functions
(a Go map read of a missing key yields the zero value, modelled with
`Option.getD`), Go slices become `List`, and loops become structural
recursion or folds mirroring the loop body.  External collaborators
that the spec declares black boxes (`generateCertKey`, the map-entry
encoder `GenerateMapEntry`, the regexp engine, the duration parser)
are taken as parameters so every theorem holds for all implementations
of those contracts.
-/

namespace TemplateRouter

/-- TLS termination mode, the Go string enum `routev1.TLSTerminationType`.
The Go zero value is the empty string. -/
def TLSTerminationEdge : String := "edge"

/-- The passthrough TLS termination constant. -/
def TLSTerminationPassthrough : String := "passthrough"

/-- The reencrypt TLS termination constant. -/
def TLSTerminationReencrypt : String := "reencrypt"

/-- A served certificate; identity for sharing purposes is `Contents`. -/
structure Certificate where
  Contents : String
deriving DecidableEq

/-- One backend endpoint (fields used by the helpers). -/
structure Endpoint where
  ID : String
  IP : String
  Port : String
  PortName : String
deriving DecidableEq

/-- `ServiceUnit`: the ordered endpoint table of one backend service. -/
structure ServiceUnit where
  EndpointTable : List Endpoint

/-- Alias keys are strings (`ServiceAliasConfigKey` in Go). -/
def ServiceAliasConfigKey := String
deriving instance DecidableEq for ServiceAliasConfigKey

/-- `ServiceAliasConfig`: one host+path+TLS binding (the fields the
helpers read).  `Certificates` models the Go `map[string]Certificate`. -/
structure ServiceAliasConfig where
  Host : String
  Path : String
  IsWildcard : Bool
  TLSTermination : String
  InsecureEdgeTerminationPolicy : String
  PreferPort : String
  Certificates : String → Option Certificate

/-- The Go zero value of `ServiceAliasConfig`, produced by reading a
missing key out of a Go map. -/
def zeroServiceAliasConfig : ServiceAliasConfig :=
  { Host := "", Path := "", IsWildcard := false, TLSTermination := "",
    InsecureEdgeTerminationPolicy := "", PreferPort := "",
    Certificates := fun _ => none }

/-- An entry produced by the external map-entry encoder. -/
structure MapEntry where
  Key : String
  Value : String
deriving DecidableEq

/-- `haproxyutil.BackendConfig`: the fields handed to the map-entry
encoder. -/
structure BackendConfig where
  Name : String
  Host : String
  Path : String
  IsWildcard : Bool
  Termination : String
  InsecurePolicy : String
  HasCertificate : Bool

/-- The external collaborators of the certificate map generator,
black boxes per the spec: the certificate-key resolver and the
map-entry encoder. -/
structure Externals where
  generateCertKey : ServiceAliasConfig → String
  generateMapEntry : String → BackendConfig → Option MapEntry

/-- `templateData`: the per-render snapshot.  `State` is the Go map
`map[ServiceAliasConfigKey]ServiceAliasConfig` as an association list;
`CertificateIndex` is the Go `map[string]int` read (missing key = 0). -/
structure templateData where
  WorkingDir : String
  State : List (String × ServiceAliasConfig)
  DisableHTTP2 : Bool
  CertificateIndex : String → Nat

/-- The reserved certificate config map name. -/
def certConfigMap : String := "cert_config.map"

/-- The certificate subdirectory constant (`certDir`), defined in the
repository outside the embedded file; its value does not affect any
claim. -/
def certDir : String := "certs"

/-- The ALPN hint literal emitted into certificate map lines. -/
def alpnHint : String := "[alpn h2,http/1.1]"

/-- Descending lexicographic order on strings: `geStr a b` holds when
`a` is allowed to precede `b` in a reverse-sorted slice. -/
def geStr (a b : String) : Prop := b ≤ a

instance : DecidableRel geStr := fun a b =>
  decidable_of_iff (b.toList ≤ a.toList) String.le_iff_toList_le.symm

instance : IsTotal String geStr := ⟨fun a b => (le_total b a)⟩

instance : IsTrans String geStr := ⟨fun _ _ _ hab hbc => le_trans hbc hab⟩

/-- `sort.Sort(sort.Reverse(sort.StringSlice(l)))`: the descending
lexicographic sort of a string slice.  Go's sort is unstable, but on
strings any descending-sorted permutation of a multiset is the same
list, so insertion sort is a faithful model. -/
def sortDescStr (l : List String) : List String := List.insertionSort geStr l

/-- `cachedRegexpCompile`, with the compiled-regexp store (a
`sync.Map`) threaded explicitly as an association list and the regexp
engine `regexp.Compile` abstracted as `compileFn` (`none` = compile
error).  The third component of the result records whether the engine
was invoked (`false` = cache hit, no compilation). -/
def cachedRegexpCompile {R : Type} (compileFn : String → Option R)
    (cache : List (String × R)) (pattern : String) :
    Option R × List (String × R) × Bool :=
  match List.lookup pattern cache with
  | none =>
    match compileFn pattern with
    | none => (none, cache, true)
    | some re => (some re, (pattern, re) :: cache, true)
  | some re => (some re, cache, false)

/-- The anchored pattern `\A(?:pattern)\z` built by `firstMatch`. -/
def anchorPat (pattern : String) : String := "\\A(?:" ++ pattern ++ ")\\z"

/-- The scanning loop of `firstMatch`: first value matching the
compiled regexp, in input order, else the empty string. -/
def firstMatchFrom {R : Type} (matchFn : R → String → Bool) (re : R) :
    List String → String
  | [] => ""
  | v :: rest => if matchFn re v then v else firstMatchFrom matchFn re rest

/-- `firstMatch`: anchors the pattern, compiles it through the engine
(abstracted as `compileFn`/`matchFn`), and returns the first matching
candidate; a compile error is swallowed and yields the empty string. -/
def firstMatch {R : Type} (compileFn : String → Option R)
    (matchFn : R → String → Bool) (pattern : String)
    (values : List String) : String :=
  match compileFn (anchorPat pattern) with
  | some re => firstMatchFrom matchFn re values
  | none => ""

/-- `endpointsForAlias`: the endpoint table as given when `PreferPort`
is empty, otherwise the loop appending exactly the endpoints whose
`PortName` or `Port` equals `PreferPort`. -/
def endpointsForAlias (cfg : ServiceAliasConfig) (svc : ServiceUnit) : List Endpoint :=
  if cfg.PreferPort.length = 0 then svc.EndpointTable
  else
    svc.EndpointTable.foldl
      (fun endpoints endpoint =>
        if endpoint.PortName = cfg.PreferPort ∨ endpoint.Port = cfg.PreferPort then
          endpoints ++ [endpoint]
        else endpoints)
      []

/-- `backendConfig`: pure field projection from an alias into the
encoder's `BackendConfig`. -/
def backendConfig (name : String) (cfg : ServiceAliasConfig) (hascert : Bool) :
    BackendConfig :=
  { Name := name, Host := cfg.Host, Path := cfg.Path,
    IsWildcard := cfg.IsWildcard, Termination := cfg.TLSTermination,
    InsecurePolicy := cfg.InsecureEdgeTerminationPolicy,
    HasCertificate := hascert }

/-- The `cert` local of `generateHAProxyCertConfigMap`: the certificate
looked up under the resolver's key when the alias has a host, and the
zero `Certificate` otherwise (Go `var cert Certificate` plus the
comma-ok map read). -/
def aliasCert (E : Externals) (cfg : ServiceAliasConfig) : Certificate :=
  if 0 < cfg.Host.length then
    (cfg.Certificates (E.generateCertKey cfg)).getD ⟨""⟩
  else ⟨""⟩

/-- The `hascert` local of `generateHAProxyCertConfigMap`: the lookup
succeeded and the stored contents are non-empty. -/
def aliasHasCert (E : Externals) (cfg : ServiceAliasConfig) : Bool :=
  if 0 < cfg.Host.length then
    match cfg.Certificates (E.generateCertKey cfg) with
    | some cert => decide (0 < cert.Contents.length)
    | none => false
  else false

/-- Go `path.Join(a, b, c)` for the already-clean inputs used by the
generator (no `..`, no empty or slash-terminated segments). -/
def pathJoin3 (a b c : String) : String := a ++ "/" ++ b ++ "/" ++ c

/-- The loop body of `generateHAProxyCertConfigMap` for one `(key,
alias)` pair of `State`: `none` when the encoder declines, otherwise
the emitted line, with the ALPN hint suppressed when HTTP/2 is
disabled or the certificate contents are shared
(`CertificateIndex[cert.Contents] > 1`). -/
def certConfigMapLine (E : Externals) (td : templateData)
    (k : String) (cfg : ServiceAliasConfig) : Option String :=
  match E.generateMapEntry certConfigMap (backendConfig k cfg (aliasHasCert E cfg)) with
  | none => none
  | some entry =>
    let fqCertPath := pathJoin3 td.WorkingDir certDir entry.Key
    if td.DisableHTTP2 || decide (1 < td.CertificateIndex (aliasCert E cfg).Contents) then
      some (String.intercalate " " [fqCertPath, entry.Value])
    else
      some (String.intercalate " " [fqCertPath, alpnHint, entry.Value])

/-- `generateHAProxyCertConfigMap`: one line per alias accepted by the
encoder, reverse-sorted at the end. -/
def generateHAProxyCertConfigMap (E : Externals) (td : templateData) : List String :=
  sortDescStr (td.State.filterMap (fun p => certConfigMapLine E td p.1 p.2))

/-- The emitted-line shape: path and value joined by single spaces,
with the ALPN hint in the middle exactly when `hint` is set. -/
def mkCertLine (fqPath value : String) (hint : Bool) : String :=
  if hint then String.intercalate " " [fqPath, alpnHint, value]
  else String.intercalate " " [fqPath, value]

/-- Bucket lookup in the nested grouping map: the Go expression
`result[host][key]` (zero/absent reads give `none`). -/
def groupedAt (result : String → Option (String → Option ServiceAliasConfig))
    (host k : String) : Option ServiceAliasConfig :=
  match result host with
  | none => none
  | some bucket => bucket k

/-- The loop of `getHTTPAliasesGroupedByHost`, processing the alias
table entry by entry: passthrough aliases are skipped, every other
alias is stored in the bucket of its `Host` under its key (a missing
bucket is created first, as by Go's `make`). -/
def groupAliasesLoop :
    List (String × ServiceAliasConfig) →
    (String → Option (String → Option ServiceAliasConfig)) →
    (String → Option (String → Option ServiceAliasConfig))
  | [], result => result
  | (k, a) :: rest, result =>
    if a.TLSTermination = TLSTerminationPassthrough then
      groupAliasesLoop rest result
    else
      let bucket := (result a.Host).getD (fun _ => none)
      groupAliasesLoop rest
        (fun h =>
          if h = a.Host then
            some (fun k4 => if k4 = k then some a else bucket k4)
          else result h)

/-- `getHTTPAliasesGroupedByHost`: the grouping built from the empty
map. -/
def getHTTPAliasesGroupedByHost (aliases : List (String × ServiceAliasConfig)) :
    String → Option (String → Option ServiceAliasConfig) :=
  groupAliasesLoop aliases (fun _ => none)

/-- The Go map read `aliases[k]` of `getPrimaryAliasKey` (missing key
gives the zero `ServiceAliasConfig`). -/
def lookupCfg (aliases : List (String × ServiceAliasConfig)) (k : String) :
    ServiceAliasConfig :=
  (List.lookup k aliases).getD zeroServiceAliasConfig

/-- The termination test of `getPrimaryAliasKey`'s scan: edge or
reencrypt. -/
def isTerminatingCfg (cfg : ServiceAliasConfig) : Bool :=
  decide (cfg.TLSTermination = TLSTerminationEdge) ||
    decide (cfg.TLSTermination = TLSTerminationReencrypt)

/-- The multi-alias body of `getPrimaryAliasKey`.  The key slice is
built exactly as in the source: `make([]string, len(aliases))`
pre-fills it with `len` empty strings and the real keys are appended
after them; the whole padded slice is then reverse-sorted, scanned for
the first edge/reencrypt key, and its head is the fallback
(`keys[0]`). -/
def getPrimaryAliasKeyMulti (aliases : List (String × ServiceAliasConfig)) : String :=
  match (sortDescStr (List.replicate aliases.length "" ++ aliases.map Prod.fst)).find?
      (fun k => isTerminatingCfg (lookupCfg aliases k)) with
  | some k => k
  | none => (sortDescStr (List.replicate aliases.length "" ++ aliases.map Prod.fst)).headD ""

/-- `getPrimaryAliasKey`: the two early returns for the empty and
singleton groups, then the sorted scan of `getPrimaryAliasKeyMulti`. -/
def getPrimaryAliasKey (aliases : List (String × ServiceAliasConfig)) : String :=
  match aliases with
  | [] => ""
  | [(k, _)] => k
  | _ => getPrimaryAliasKeyMulti aliases

/-- Outcome of the external duration parser
`haproxytime.ParseDuration`: success with a `time.Duration`
(nanoseconds, an integer), `OverflowError`, `SyntaxError`, or any
other error. -/
inductive DurationParseResult where
  | ok (d : Int)
  | overflow
  | syntaxErr
  | other
deriving DecidableEq

/-- `clipHAProxyTimeoutValue`, with the duration parser and the
proxy's maximum duration and canonical maximum/default literals
abstracted (`templateutil.HaproxyMaxTimeoutDuration`,
`templateutil.HaproxyMaxTimeout`, `templateutil.HaproxyDefaultTimeout`). -/
def clipHAProxyTimeoutValue (parse : String → DurationParseResult)
    (maxDur : Int) (maxLit defLit : String) (val : String) : String :=
  if val.length = 0 then val
  else
    match parse val with
    | .overflow => maxLit
    | .syntaxErr => ""
    | .other => defLit
    | .ok duration => if maxDur < duration then maxLit else val

/-- Go `unicode.IsSpace`, used by both `strings.TrimSpace` and
`strings.Fields`: the Latin-1 whitespace characters (TAB, LF, VT, FF,
CR, SPACE, NEL, NBSP) plus the remainder of the Unicode `White_Space`
property (OGHAM SPACE MARK, the EN QUAD .. HAIR SPACE range, LINE and
PARAGRAPH SEPARATOR, NARROW NO-BREAK SPACE, MEDIUM MATHEMATICAL
SPACE, IDEOGRAPHIC SPACE). -/
def goIsSpace (c : Char) : Bool :=
  c = ' ' || c = '\t' || c = '\n' || c = '\x0b' || c = '\x0c' || c = '\r' ||
    c = '\u0085' || c = '\u00A0' || c = '\u1680' ||
    ('\u2000' ≤ c && c ≤ '\u200A') ||
    c = '\u2028' || c = '\u2029' || c = '\u202F' || c = '\u205F' || c = '\u3000'

/-- Go `strings.TrimSpace`: drop leading and trailing whitespace. -/
def goTrimSpace (s : String) : String :=
  ⟨((s.data.dropWhile goIsSpace).reverse.dropWhile goIsSpace).reverse⟩

/-- The accumulator loop of Go `strings.Fields`: split into maximal
runs of non-whitespace characters. -/
def fieldsCh (acc : List Char) : List Char → List (List Char)
  | [] => if acc.isEmpty then [] else [acc.reverse]
  | c :: rest =>
    if goIsSpace c then
      if acc.isEmpty then fieldsCh [] rest
      else acc.reverse :: fieldsCh [] rest
    else fieldsCh (c :: acc) rest

/-- Go `strings.Fields`. -/
def goFields (s : String) : List String := (fieldsCh [] s.data).map (fun l => ⟨l⟩)

/-- `parseIPList`, with the two stdlib validators `net.ParseIP` (is
the token a valid IPv4/IPv6 address) and `net.ParseCIDR` (is it a
valid CIDR) abstracted as boolean predicates.  The whitespace checks
and the appending loop mirror the source. -/
def parseIPList (validIP validCIDR : String → Bool) (list : String) : String :=
  let trimmedList := goTrimSpace list
  if trimmedList = "" then ""
  else if trimmedList ≠ list then ""
  else
    let validIPs :=
      (goFields list).foldl
        (fun acc ip =>
          if validIP ip then acc ++ [ip]
          else if validCIDR ip then acc ++ [ip]
          else acc)
        []
    if validIPs.length = 0 then ""
    else String.intercalate " " validIPs

/-- Decimal digit test. -/
def isDigitCh (c : Char) : Bool := '0' ≤ c && c ≤ '9'

/-- Numeric value of a digit list (most significant first). -/
def digitsVal (l : List Char) : Nat :=
  l.foldl (fun n c => n * 10 + (c.toNat - '0'.toNat)) 0

/-- Split a character list on a separator character. -/
def splitOnCh (sep : Char) : List Char → List (List Char)
  | [] => [[]]
  | c :: rest =>
    if c = sep then [] :: splitOnCh sep rest
    else
      match splitOnCh sep rest with
      | [] => [[c]]
      | f :: fs => (c :: f) :: fs

/-- One dotted-quad field per Go's IPv4 parser: one to three digits,
no leading zero, value at most 255. -/
def ipv4FieldOk (f : List Char) : Bool :=
  decide (0 < f.length) && decide (f.length ≤ 3) && f.all isDigitCh &&
    !(decide (1 < f.length) && decide (f.headD '0' = '0')) &&
    decide (digitsVal f ≤ 255)

/-- Go `net.ParseIP` restricted to IPv4 dotted-quad literals (the only
address family the concrete inputs below use): exactly four valid
fields separated by dots. -/
def ipv4Valid (s : String) : Bool :=
  let fields := splitOnCh '.' s.data
  decide (fields.length = 4) && fields.all ipv4FieldOk

/-- Go `net.ParseCIDR` restricted to IPv4 networks: an IPv4 address, a
single slash, and an all-digit prefix length of at most 32. -/
def ipv4CIDRValid (s : String) : Bool :=
  match splitOnCh '/' s.data with
  | [addr, mask] =>
    ipv4Valid ⟨addr⟩ && decide (0 < mask.length) && mask.all isDigitCh &&
      decide (digitsVal mask ≤ 32)
  | _ => false

/-- The domain-parent extractor `routeapihelpers.GetDomainForHost`.
Modelled from the spec: computes the DNS parent-domain of the
hostname, i.e. everything after the first dot, and the empty string
when the hostname has no dot-separated parent.  The function lives in
the repository outside the embedded file. -/
def getDomainForHost (hostname : String) : String :=
  match hostname.data.dropWhile (fun c => c ≠ '.') with
  | [] => ""
  | _ :: rest => ⟨rest⟩

/-- The characters Go `regexp.QuoteMeta` escapes. -/
def isRegexSpecial (c : Char) : Bool :=
  c = '\\' || c = '.' || c = '+' || c = '*' || c = '?' || c = '(' || c = ')' ||
    c = '|' || c = '[' || c = ']' || c = '\x7b' || c = '\x7d' || c = '^' || c = '$'

/-- Character loop of `regexp.QuoteMeta`. -/
def quoteMetaCh : List Char → List Char
  | [] => []
  | c :: rest =>
    if isRegexSpecial c then '\\' :: c :: quoteMetaCh rest
    else c :: quoteMetaCh rest

/-- Go `regexp.QuoteMeta`: backslash-escape every regexp
metacharacter. -/
def goQuoteMeta (s : String) : String := ⟨quoteMetaCh s.data⟩

/-- `genSubdomainWildcardRegexp`: the degenerate literal concatenation
when the hostname has no parent domain, otherwise the anchored pattern
over the quoted `"." + subdomain + path` literal, with or without the
`(|/.*)` suffix group. -/
def genSubdomainWildcardRegexp (hostname path : String) (exactPath : Bool) : String :=
  let subdomain := getDomainForHost hostname
  if subdomain.length = 0 then hostname ++ path
  else
    let expr := goQuoteMeta ("." ++ subdomain ++ path)
    if exactPath then "^[^\\.]*" ++ expr ++ "$"
    else "^[^\\.]*" ++ expr ++ "(|/.*)$"

/-- The pattern family `genSubdomainWildcardRegexp` emits in the
non-degenerate case, as a function of the unquoted literal. -/
def wildcardPatternOf (lit : String) (exactPath : Bool) : String :=
  if exactPath then "^[^\\.]*" ++ goQuoteMeta lit ++ "$"
  else "^[^\\.]*" ++ goQuoteMeta lit ++ "(|/.*)$"

/-- Semantics of the tail of the wildcard pattern: after the literal,
`$` requires the end of the string and `(|/.*)$` additionally allows a
suffix starting with a slash. -/
def wildTailOk (exactPath : Bool) : List Char → Bool
  | [] => true
  | c :: _ => !exactPath && c = '/'

/-- The literal and tail of the wildcard pattern matched at the
current position. -/
def matchHere (lit : List Char) (exactPath : Bool) (s : List Char) : Bool :=
  lit.isPrefixOf s && wildTailOk exactPath (s.drop lit.length)

/-- RE2 matching semantics of the anchored pattern
`^[^\.]*Q(lit)$` (exact) or `^[^\.]*Q(lit)(|/.*)$` (prefix), where
`Q` is `regexp.QuoteMeta`: some dot-free prefix is consumed, then the
literal, then an admissible tail. -/
def matchW (lit : List Char) (exactPath : Bool) : List Char → Bool
  | [] => matchHere lit exactPath []
  | c :: rest =>
    matchHere lit exactPath (c :: rest) ||
      (decide (c ≠ '.') && matchW lit exactPath rest)

/-- String-level wrapper for `matchW`. -/
def matchWStr (lit : String) (exactPath : Bool) (s : String) : Bool :=
  matchW lit.data exactPath s.data

/-! Helper lemmas shared between the claim theorems. -/

theorem string_length_zero_iff {s : String} : s.length = 0 ↔ s = "" := by
  constructor
  · intro h
    cases s with
    | mk d =>
      simp [String.length] at h
      subst h
      rfl
  · intro h
    subst h
    rfl

theorem foldl_filter_append {α : Type} (p : α → Bool) :
    ∀ (l acc : List α),
      l.foldl (fun acc2 e => if p e then acc2 ++ [e] else acc2) acc = acc ++ l.filter p
  | [], acc => by simp
  | e :: rest, acc => by
    by_cases h : p e <;>
      simp [List.foldl_cons, List.filter_cons, h, foldl_filter_append p rest]

/-- C10: `endpointsForAlias` returns the service unit's endpoint table
exactly as given when `PreferPort` is empty, and otherwise precisely
the subsequence, in original order, of endpoints whose `PortName` or
`Port` equals `PreferPort`. -/
theorem endpointsForAlias_spec (cfg : ServiceAliasConfig) (svc : ServiceUnit) :
    (cfg.PreferPort = "" → endpointsForAlias cfg svc = svc.EndpointTable) ∧
    (cfg.PreferPort ≠ "" →
      endpointsForAlias cfg svc =
        svc.EndpointTable.filter
          (fun e => decide (e.PortName = cfg.PreferPort ∨ e.Port = cfg.PreferPort))) := by
  constructor
  · intro h
    unfold endpointsForAlias
    rw [if_pos (string_length_zero_iff.mpr h)]
  · intro h
    unfold endpointsForAlias
    rw [if_neg (fun hz => h (string_length_zero_iff.mp hz))]
    have hfun :
        (fun (endpoints : List Endpoint) (endpoint : Endpoint) =>
          if endpoint.PortName = cfg.PreferPort ∨ endpoint.Port = cfg.PreferPort then
            endpoints ++ [endpoint]
          else endpoints) =
        (fun acc2 e =>
          if (decide (e.PortName = cfg.PreferPort ∨ e.Port = cfg.PreferPort)) then
            acc2 ++ [e]
          else acc2) := by
      funext acc2 e
      by_cases he : e.PortName = cfg.PreferPort ∨ e.Port = cfg.PreferPort <;> simp [he]
    rw [hfun, foldl_filter_append]
    simp

/-- Sample endpoint for the `endpointsForAlias` witness. -/
def wEp1 : Endpoint := { ID := "e1", IP := "10.0.0.1", Port := "8080", PortName := "web" }

/-- Second sample endpoint for the `endpointsForAlias` witness. -/
def wEp2 : Endpoint := { ID := "e2", IP := "10.0.0.2", Port := "9090", PortName := "metrics" }

/-- Sample service unit for the `endpointsForAlias` witness. -/
def wSvcC10 : ServiceUnit := ⟨[wEp1, wEp2]⟩

/-- Sample alias preferring port `web` for the `endpointsForAlias`
witness. -/
def wCfgC10 : ServiceAliasConfig := { zeroServiceAliasConfig with PreferPort := "web" }

theorem endpointsForAlias_spec_witness :
    wCfgC10.PreferPort ≠ "" ∧ endpointsForAlias wCfgC10 wSvcC10 = [wEp1] :=
  ⟨by decide, ((endpointsForAlias_spec wCfgC10 wSvcC10).2 (by decide)).trans (by decide)⟩

/-- C9: on one cache state, two sequential `cachedRegexpCompile` calls
for the same valid pattern both succeed with the same compiled value,
the second call neither writes the cache nor invokes the compiler
again, and a compile failure leaves the cache unchanged. -/
theorem cachedRegexpCompile_write_once {R : Type} (compileFn : String → Option R)
    (cache : List (String × R)) (pattern : String) :
    (∀ re, compileFn pattern = some re →
      ∃ re1,
        (cachedRegexpCompile compileFn cache pattern).1 = some re1 ∧
          (cachedRegexpCompile compileFn
              (cachedRegexpCompile compileFn cache pattern).2.1 pattern).1 = some re1 ∧
          (cachedRegexpCompile compileFn
              (cachedRegexpCompile compileFn cache pattern).2.1 pattern).2.1 =
            (cachedRegexpCompile compileFn cache pattern).2.1 ∧
          (cachedRegexpCompile compileFn
              (cachedRegexpCompile compileFn cache pattern).2.1 pattern).2.2 = false) ∧
    (compileFn pattern = none →
      (cachedRegexpCompile compileFn cache pattern).2.1 = cache) := by
  constructor
  · intro re hre
    cases hl : List.lookup pattern cache with
    | some re0 => exact ⟨re0, by simp [cachedRegexpCompile, hl]⟩
    | none => exact ⟨re, by simp [cachedRegexpCompile, hl, hre, List.lookup]⟩
  · intro hnone
    cases hl : List.lookup pattern cache with
    | some re0 => simp [cachedRegexpCompile, hl]
    | none => simp [cachedRegexpCompile, hl, hnone]

/-- Sample compiler for the cache witness: exactly one valid pattern. -/
def wCompileC9 : String → Option Nat := fun s => if s = "ab*" then some 7 else none

theorem cachedRegexpCompile_write_once_witness :
    ∃ re1,
      (cachedRegexpCompile wCompileC9 [] "ab*").1 = some re1 ∧
        (cachedRegexpCompile wCompileC9
            (cachedRegexpCompile wCompileC9 [] "ab*").2.1 "ab*").1 = some re1 ∧
        (cachedRegexpCompile wCompileC9
            (cachedRegexpCompile wCompileC9 [] "ab*").2.1 "ab*").2.1 =
          (cachedRegexpCompile wCompileC9 [] "ab*").2.1 ∧
        (cachedRegexpCompile wCompileC9
            (cachedRegexpCompile wCompileC9 [] "ab*").2.1 "ab*").2.2 = false :=
  (cachedRegexpCompile_write_once wCompileC9 [] "ab*").1 7 (by decide)

/-- C3: `clipHAProxyTimeoutValue` returns the value unchanged when it
is empty or parses to a duration within the maximum, the maximum
literal on overflow or when the duration exceeds the maximum, the
empty string on a syntax error, and the default literal on any other
parse outcome; the function is total, so no error propagates. -/
theorem clipHAProxyTimeoutValue_spec (parse : String → DurationParseResult)
    (maxDur : Int) (maxLit defLit : String) (val : String) :
    (val = "" → clipHAProxyTimeoutValue parse maxDur maxLit defLit val = val) ∧
    (val ≠ "" → ∀ d, parse val = .ok d → d ≤ maxDur →
      clipHAProxyTimeoutValue parse maxDur maxLit defLit val = val) ∧
    (val ≠ "" → ∀ d, parse val = .ok d → maxDur < d →
      clipHAProxyTimeoutValue parse maxDur maxLit defLit val = maxLit) ∧
    (val ≠ "" → parse val = .overflow →
      clipHAProxyTimeoutValue parse maxDur maxLit defLit val = maxLit) ∧
    (val ≠ "" → parse val = .syntaxErr →
      clipHAProxyTimeoutValue parse maxDur maxLit defLit val = "") ∧
    (val ≠ "" → parse val = .other →
      clipHAProxyTimeoutValue parse maxDur maxLit defLit val = defLit) := by
  refine ⟨?_, ?_, ?_, ?_, ?_, ?_⟩
  · intro h
    unfold clipHAProxyTimeoutValue
    rw [if_pos (string_length_zero_iff.mpr h)]
  · intro h d hd hle
    unfold clipHAProxyTimeoutValue
    rw [if_neg (fun hz => h (string_length_zero_iff.mp hz)), hd]
    simp [not_lt.mpr hle]
  · intro h d hd hlt
    unfold clipHAProxyTimeoutValue
    rw [if_neg (fun hz => h (string_length_zero_iff.mp hz)), hd]
    simp [hlt]
  · intro h hp
    unfold clipHAProxyTimeoutValue
    rw [if_neg (fun hz => h (string_length_zero_iff.mp hz)), hp]
  · intro h hp
    unfold clipHAProxyTimeoutValue
    rw [if_neg (fun hz => h (string_length_zero_iff.mp hz)), hp]
  · intro h hp
    unfold clipHAProxyTimeoutValue
    rw [if_neg (fun hz => h (string_length_zero_iff.mp hz)), hp]

/-- Sample duration parser for the timeout witness. -/
def wParseC3 : String → DurationParseResult := fun s =>
  if s = "5s" then .ok 5
  else if s = "9000h" then .overflow
  else if s = "bogus" then .syntaxErr
  else .other

theorem clipHAProxyTimeoutValue_spec_witness :
    clipHAProxyTimeoutValue wParseC3 100 "24d" "5s" "5s" = "5s" ∧
    clipHAProxyTimeoutValue wParseC3 100 "24d" "5s" "9000h" = "24d" ∧
    clipHAProxyTimeoutValue wParseC3 100 "24d" "5s" "bogus" = "" :=
  ⟨(clipHAProxyTimeoutValue_spec wParseC3 100 "24d" "5s" "5s").2.1
      (by decide) 5 (by decide) (by decide),
    (clipHAProxyTimeoutValue_spec wParseC3 100 "24d" "5s" "9000h").2.2.2.1
      (by decide) (by decide),
    (clipHAProxyTimeoutValue_spec wParseC3 100 "24d" "5s" "bogus").2.2.2.2.1
      (by decide) (by decide)⟩

theorem firstMatchFrom_of_none {R : Type} (matchFn : R → String → Bool) (re : R) :
    ∀ vs : List String, (∀ v ∈ vs, matchFn re v = false) →
      firstMatchFrom matchFn re vs = ""
  | [], _ => rfl
  | v :: rest, h => by
    have hv := h v (List.mem_cons_self v rest)
    simp only [firstMatchFrom, hv]
    exact firstMatchFrom_of_none matchFn re rest
      (fun u hu => h u (List.mem_cons_of_mem v hu))

theorem firstMatchFrom_first {R : Type} (matchFn : R → String → Bool) (re : R) :
    ∀ vs : List String, ∀ v ∈ vs, matchFn re v = true →
      ∃ l1 l2, vs = l1 ++ firstMatchFrom matchFn re vs :: l2 ∧
        matchFn re (firstMatchFrom matchFn re vs) = true ∧
        ∀ u ∈ l1, matchFn re u = false
  | w :: rest, v, hv, hm => by
    by_cases hw : matchFn re w = true
    · exact ⟨[], rest, by simp [firstMatchFrom, hw], by simp [firstMatchFrom, hw, hw], by simp⟩
    · have hvrest : v ∈ rest := by
        rcases List.mem_cons.mp hv with h1 | h1
        · exact absurd (h1 ▸ hm) hw
        · exact h1
      obtain ⟨l1, l2, heq, hme, hpre⟩ := firstMatchFrom_first matchFn re rest v hvrest hm
      have hwf : matchFn re w = false := by
        cases h : matchFn re w with
        | true => exact absurd h hw
        | false => rfl
      refine ⟨w :: l1, l2, ?_, ?_, ?_⟩
      · simp only [firstMatchFrom, hwf, List.cons_append, List.cons.injEq, true_and,
          Bool.false_eq_true, if_false]
        exact heq
      · simpa [firstMatchFrom, hwf] using hme
      · intro u hu
        rcases List.mem_cons.mp hu with h1 | h1
        · exact h1 ▸ hwf
        · exact hpre u h1

/-- C6: `firstMatch` compiles the pattern anchored as `\A(?:pattern)\z`
and returns the first candidate in input order that matches the
compiled regexp; it returns the empty string when no candidate matches
or when the compile fails, never propagating the error. -/
theorem firstMatch_spec {R : Type} (compileFn : String → Option R)
    (matchFn : R → String → Bool) (pattern : String) (values : List String) :
    (compileFn (anchorPat pattern) = none →
      firstMatch compileFn matchFn pattern values = "") ∧
    (∀ re, compileFn (anchorPat pattern) = some re →
      ((∀ v ∈ values, matchFn re v = false) →
        firstMatch compileFn matchFn pattern values = "") ∧
      (∀ v ∈ values, matchFn re v = true →
        ∃ l1 l2,
          values = l1 ++ firstMatch compileFn matchFn pattern values :: l2 ∧
            matchFn re (firstMatch compileFn matchFn pattern values) = true ∧
            ∀ u ∈ l1, matchFn re u = false)) := by
  constructor
  · intro h
    unfold firstMatch
    rw [h]
  · intro re hre
    constructor
    · intro hnone
      unfold firstMatch
      rw [hre]
      exact firstMatchFrom_of_none matchFn re values hnone
    · intro v hv hm
      unfold firstMatch
      rw [hre]
      exact firstMatchFrom_first matchFn re values v hv hm

/-- Sample regexp engine for the `firstMatch` witness: the compiled
form of the one valid anchored pattern is the list of its literal
alternatives, and matching is membership; every other pattern fails to
compile. -/
def wCompileC6 : String → Option (List String) := fun s =>
  if s = anchorPat "a|b" then some ["a", "b"] else none

/-- Sample matcher for the `firstMatch` witness. -/
def wMatchC6 : List String → String → Bool := fun lits v => lits.contains v

theorem firstMatch_spec_witness :
    (∃ l1 l2,
      ["c", "b", "a"] = l1 ++ firstMatch wCompileC6 wMatchC6 "a|b" ["c", "b", "a"] :: l2 ∧
        wMatchC6 ["a", "b"] (firstMatch wCompileC6 wMatchC6 "a|b" ["c", "b", "a"]) = true ∧
        ∀ u ∈ l1, wMatchC6 ["a", "b"] u = false) ∧
    firstMatch wCompileC6 wMatchC6 "a|b" ["c", "b", "a"] = "b" ∧
    firstMatch wCompileC6 wMatchC6 "(" ["x"] = "" :=
  ⟨((firstMatch_spec wCompileC6 wMatchC6 "a|b" ["c", "b", "a"]).2 ["a", "b"]
      (by decide)).2 "b" (by decide) (by decide),
    by decide,
    (firstMatch_spec wCompileC6 wMatchC6 "(" ["x"]).1 (by decide)⟩

/-- C5: the certificate config map lines are sorted in descending
lexicographic order (`geStr a b` means `b ≤ a`) for every render
context and every behaviour of the external collaborators. -/
theorem generateHAProxyCertConfigMap_sorted (E : Externals) (td : templateData) :
    List.Sorted geStr (generateHAProxyCertConfigMap E td) :=
  List.sorted_insertionSort geStr _

/-- C1: for every alias of the state accepted by the map-entry
encoder, the emitted certificate map line is the hint-free join of
path and value when HTTP/2 is disabled or the certificate contents are
shared, and carries the ALPN hint `[alpn h2,http/1.1]` exactly when
`DisableHTTP2` is false and `CertificateIndex[cert.Contents] ≤ 1`; the
line is part of the generated map. -/
theorem certConfigMapLine_alpn (E : Externals) (td : templateData)
    (k : String) (cfg : ServiceAliasConfig) (entry : MapEntry)
    (hmem : (k, cfg) ∈ td.State)
    (hentry : E.generateMapEntry certConfigMap
      (backendConfig k cfg (aliasHasCert E cfg)) = some entry) :
    certConfigMapLine E td k cfg =
      some (mkCertLine (pathJoin3 td.WorkingDir certDir entry.Key) entry.Value
        (decide (td.DisableHTTP2 = false ∧
          td.CertificateIndex (aliasCert E cfg).Contents ≤ 1))) ∧
    mkCertLine (pathJoin3 td.WorkingDir certDir entry.Key) entry.Value
        (decide (td.DisableHTTP2 = false ∧
          td.CertificateIndex (aliasCert E cfg).Contents ≤ 1)) ∈
      generateHAProxyCertConfigMap E td := by
  have hline : certConfigMapLine E td k cfg =
      some (mkCertLine (pathJoin3 td.WorkingDir certDir entry.Key) entry.Value
        (decide (td.DisableHTTP2 = false ∧
          td.CertificateIndex (aliasCert E cfg).Contents ≤ 1))) := by
    unfold certConfigMapLine
    rw [hentry]
    by_cases hd : td.DisableHTTP2 <;>
      by_cases hi : td.CertificateIndex (aliasCert E cfg).Contents ≤ 1 <;>
        simp [mkCertLine, hd, hi, Nat.lt_iff_add_one_le, Nat.not_le]
  refine ⟨hline, ?_⟩
  have hmem2 : mkCertLine (pathJoin3 td.WorkingDir certDir entry.Key) entry.Value
      (decide (td.DisableHTTP2 = false ∧
        td.CertificateIndex (aliasCert E cfg).Contents ≤ 1)) ∈
      td.State.filterMap (fun p => certConfigMapLine E td p.1 p.2) :=
    List.mem_filterMap.mpr ⟨(k, cfg), hmem, hline⟩
  exact ((List.perm_insertionSort geStr _).mem_iff).mpr hmem2

/-- Sample externals for the certificate map witness: the certificate
key is the host, and the encoder accepts every non-passthrough
backend, keying it by host. -/
def wExtC1 : Externals :=
  { generateCertKey := fun cfg => cfg.Host,
    generateMapEntry := fun _ bc =>
      if bc.Termination = TLSTerminationPassthrough then none
      else some { Key := bc.Host ++ ".pem", Value := bc.Name } }

/-- Shared certificate for the witness scenario. -/
def wCertShared : Certificate := ⟨"SHAREDCERT"⟩

/-- First alias sharing the certificate contents. -/
def wCfg1C1 : ServiceAliasConfig :=
  { Host := "h1.example", Path := "", IsWildcard := false,
    TLSTermination := TLSTerminationEdge, InsecureEdgeTerminationPolicy := "",
    PreferPort := "",
    Certificates := fun key => if key = "h1.example" then some wCertShared else none }

/-- Second alias sharing the certificate contents. -/
def wCfg2C1 : ServiceAliasConfig :=
  { Host := "h2.example", Path := "", IsWildcard := false,
    TLSTermination := TLSTerminationEdge, InsecureEdgeTerminationPolicy := "",
    PreferPort := "",
    Certificates := fun key => if key = "h2.example" then some wCertShared else none }

/-- Alias holding an exclusive certificate. -/
def wCfg3C1 : ServiceAliasConfig :=
  { Host := "h3.example", Path := "", IsWildcard := false,
    TLSTermination := TLSTerminationEdge, InsecureEdgeTerminationPolicy := "",
    PreferPort := "",
    Certificates := fun key => if key = "h3.example" then some ⟨"EXCLCERT"⟩ else none }

/-- Render context with two aliases sharing one certificate content
(`SHAREDCERT` counted twice) and one alias with an exclusive content. -/
def wTdC1 : templateData :=
  { WorkingDir := "/w",
    State := [("r1", wCfg1C1), ("r2", wCfg2C1), ("r3", wCfg3C1)],
    DisableHTTP2 := false,
    CertificateIndex := fun c =>
      if c = "SHAREDCERT" then 2 else if c = "EXCLCERT" then 1 else 0 }

theorem certConfigMapLine_alpn_witness :
    certConfigMapLine wExtC1 wTdC1 "r1" wCfg1C1 = some "/w/certs/h1.example.pem r1" ∧
    certConfigMapLine wExtC1 wTdC1 "r2" wCfg2C1 = some "/w/certs/h2.example.pem r2" ∧
    certConfigMapLine wExtC1 wTdC1 "r3" wCfg3C1 =
      some "/w/certs/h3.example.pem [alpn h2,http/1.1] r3" :=
  ⟨((certConfigMapLine_alpn wExtC1 wTdC1 "r1" wCfg1C1 ⟨"h1.example.pem", "r1"⟩
      (List.Mem.head _) (by rfl)).1).trans (by rfl),
    ((certConfigMapLine_alpn wExtC1 wTdC1 "r2" wCfg2C1 ⟨"h2.example.pem", "r2"⟩
      (List.Mem.tail _ (List.Mem.head _)) (by rfl)).1).trans (by rfl),
    ((certConfigMapLine_alpn wExtC1 wTdC1 "r3" wCfg3C1 ⟨"h3.example.pem", "r3"⟩
      (List.Mem.tail _ (List.Mem.tail _ (List.Mem.head _))) (by rfl)).1).trans (by rfl)⟩

/-- The bucket write of one grouping step, seen through `groupedAt`. -/
theorem groupedAt_update
    (result : String → Option (String → Option ServiceAliasConfig))
    (a : ServiceAliasConfig) (k h k4 : String) :
    groupedAt
      (fun h2 =>
        if h2 = a.Host then
          some (fun k5 => if k5 = k then some a
            else ((result a.Host).getD (fun _ => none)) k5)
        else result h2) h k4 =
      if h = a.Host ∧ k4 = k then some a else groupedAt result h k4 := by
  by_cases hh : h = a.Host
  · by_cases hk : k4 = k
    · simp [groupedAt, hh, hk]
    · subst hh
      cases hr : result a.Host with
      | none => simp [groupedAt, hk, hr]
      | some bucket => simp [groupedAt, hk, hr]
  · simp [groupedAt, hh]

/-- The predicate selecting, among the state entries, a write to
bucket `h` at key `k`. -/
def bucketWrite (h k : String) (p : String × ServiceAliasConfig) : Bool :=
  decide (p.1 = k) && decide (p.2.Host = h) &&
    !decide (p.2.TLSTermination = TLSTerminationPassthrough)

theorem groupAliasesLoop_lastWrite :
    ∀ (l : List (String × ServiceAliasConfig))
      (acc : String → Option (String → Option ServiceAliasConfig)) (h k : String),
      groupedAt (groupAliasesLoop l acc) h k =
        match l.reverse.find? (bucketWrite h k) with
        | some p => some p.2
        | none => groupedAt acc h k
  | [], acc, h, k => by simp [groupAliasesLoop]
  | (k0, a0) :: rest, acc, h, k => by
    by_cases hpass : a0.TLSTermination = TLSTerminationPassthrough
    · have hpred : bucketWrite h k (k0, a0) = false := by simp [bucketWrite, hpass]
      simp only [groupAliasesLoop, hpass, if_pos]
      rw [groupAliasesLoop_lastWrite rest acc h k]
      rw [List.reverse_cons, List.find?_append]
      cases hf : rest.reverse.find? (bucketWrite h k) with
      | some p => simp [Option.or, hf]
      | none => simp [Option.or, hf, List.find?, hpred]
    · simp only [groupAliasesLoop, hpass, if_neg, not_false_iff]
      rw [groupAliasesLoop_lastWrite rest _ h k]
      rw [List.reverse_cons, List.find?_append]
      cases hf : rest.reverse.find? (bucketWrite h k) with
      | some p => simp [Option.or, hf]
      | none =>
        simp only [Option.or, hf]
        rw [groupedAt_update acc a0 k0 h k]
        by_cases hcond : h = a0.Host ∧ k = k0
        · have hpred : bucketWrite h k (k0, a0) = true := by
            simp [bucketWrite, hpass, hcond.1, hcond.2]
          have hfind : List.find? (bucketWrite h k) [(k0, a0)] = some (k0, a0) := by
            simp [List.find?, hpred]
          rw [hfind, if_pos hcond]
        · have hpred : bucketWrite h k (k0, a0) = false := by
            by_cases h1 : k0 = k
            · by_cases h2 : a0.Host = h
              · exact absurd ⟨h2.symm, h1.symm⟩ hcond
              · simp [bucketWrite, h2]
            · simp [bucketWrite, h1]
          simp [List.find?, hpred, hcond]

/-- A present binding is what `List.lookup` returns when the keys are
nodup. -/
theorem lookup_eq_some_of_mem {β : Type} :
    ∀ {l : List (String × β)}, (l.map Prod.fst).Nodup →
      ∀ {k : String} {a : β}, (k, a) ∈ l → List.lookup k l = some a := by
  intro l
  induction l with
  | nil => intro _ k a h; cases h
  | cons p rest ih =>
    intro hnd k a hmem
    rcases List.nodup_cons.mp hnd with ⟨hnotin, hndrest⟩
    rcases List.mem_cons.mp hmem with h1 | h1
    · rw [← h1]
      simp [List.lookup]
    · have hk : k ≠ p.1 := by
        intro hkeq
        apply hnotin
        rw [← hkeq]
        exact List.mem_map.mpr ⟨(k, a), h1, rfl⟩
      obtain ⟨p1, p2⟩ := p
      simp only [List.lookup, beq_false_of_ne hk]
      exact ih hndrest h1

/-- A successful `List.lookup` exhibits a member. -/
theorem mem_of_lookup_eq_some {β : Type} :
    ∀ {l : List (String × β)} {k : String} {a : β},
      List.lookup k l = some a → (k, a) ∈ l := by
  intro l
  induction l with
  | nil => intro k a h; simp [List.lookup] at h
  | cons p rest ih =>
    intro k a h
    obtain ⟨p1, p2⟩ := p
    by_cases hk : k = p1
    · subst hk
      simp only [List.lookup, beq_self_eq_true] at h
      rw [Option.some.inj h]
      exact List.Mem.head _
    · simp only [List.lookup, beq_false_of_ne hk] at h
      exact List.Mem.tail _ (ih h)

/-- Functionality of an association list with nodup keys. -/
theorem nodup_keys_eq {β : Type} {l : List (String × β)}
    (hnd : (l.map Prod.fst).Nodup) {k : String} {a b : β}
    (ha : (k, a) ∈ l) (hb : (k, b) ∈ l) : a = b := by
  have h1 := lookup_eq_some_of_mem hnd ha
  have h2 := lookup_eq_some_of_mem hnd hb
  rw [h1] at h2
  exact Option.some.inj h2

/-- C8: with nodup alias keys, the grouping returned by
`getHTTPAliasesGroupedByHost` holds `a` in bucket `h` at key `k`
exactly when `(k, a)` is an input alias whose host is `h` and whose
TLS termination is not passthrough — so no passthrough alias appears
anywhere, and every other alias appears exactly in the bucket of its
host under its own key. -/
theorem getHTTPAliasesGroupedByHost_spec
    (aliases : List (String × ServiceAliasConfig))
    (hnd : (aliases.map Prod.fst).Nodup) (h k : String) (a : ServiceAliasConfig) :
    groupedAt (getHTTPAliasesGroupedByHost aliases) h k = some a ↔
      ((k, a) ∈ aliases ∧ a.Host = h ∧
        a.TLSTermination ≠ TLSTerminationPassthrough) := by
  unfold getHTTPAliasesGroupedByHost
  rw [groupAliasesLoop_lastWrite]
  constructor
  · intro hsome
    cases hf : aliases.reverse.find? (bucketWrite h k) with
    | none => rw [hf] at hsome; exact absurd hsome (by simp [groupedAt])
    | some q =>
      rw [hf] at hsome
      have haq : a = q.2 := by
        have := hsome
        simp only [Option.some.injEq] at this
        exact this.symm
      have hqmem : q ∈ aliases := List.mem_reverse.mp (List.mem_of_find?_eq_some hf)
      have hqpred := List.find?_some hf
      simp only [bucketWrite, Bool.and_eq_true, Bool.not_eq_true', decide_eq_true_eq,
        decide_eq_false_iff_not] at hqpred
      obtain ⟨q1, q2⟩ := q
      refine ⟨?_, ?_, ?_⟩
      · rw [haq, ← hqpred.1.1]
        exact hqmem
      · rw [haq]; exact hqpred.1.2
      · rw [haq]; exact hqpred.2
  · rintro ⟨hmem, hhost, hpass⟩
    have hmemrev : (k, a) ∈ aliases.reverse := List.mem_reverse.mpr hmem
    have hpred : bucketWrite h k (k, a) = true := by
      simp [bucketWrite, hhost, hpass]
    cases hf : aliases.reverse.find? (bucketWrite h k) with
    | none =>
      exact absurd hpred (by simpa using (List.find?_eq_none.mp hf) _ hmemrev)
    | some q =>
      have hqmem : q ∈ aliases := List.mem_reverse.mp (List.mem_of_find?_eq_some hf)
      have hqpred := List.find?_some hf
      simp only [bucketWrite, Bool.and_eq_true, Bool.not_eq_true', decide_eq_true_eq,
        decide_eq_false_iff_not] at hqpred
      obtain ⟨q1, q2⟩ := q
      have hq2 : q2 = a := by
        have hqmem2 : (k, q2) ∈ aliases := by
          rw [← hqpred.1.1]
          exact hqmem
        exact nodup_keys_eq hnd hqmem2 hmem
      simp [hq2]

/-- Edge-terminated alias for the grouping witness. -/
def wCfgC8a : ServiceAliasConfig :=
  { zeroServiceAliasConfig with
    Host := "site.example"
    TLSTermination := TLSTerminationEdge }

/-- Passthrough alias for the grouping witness. -/
def wCfgC8b : ServiceAliasConfig :=
  { zeroServiceAliasConfig with
    Host := "site.example"
    TLSTermination := TLSTerminationPassthrough }

/-- Alias table for the grouping witness. -/
def wAliasesC8 : List (String × ServiceAliasConfig) :=
  [("r1", wCfgC8a), ("r2", wCfgC8b)]

theorem getHTTPAliasesGroupedByHost_spec_witness :
    groupedAt (getHTTPAliasesGroupedByHost wAliasesC8) "site.example" "r1" = some wCfgC8a ∧
    ∀ a, groupedAt (getHTTPAliasesGroupedByHost wAliasesC8) "site.example" "r2" ≠ some a := by
  constructor
  · exact (getHTTPAliasesGroupedByHost_spec wAliasesC8 (by decide) "site.example" "r1"
      wCfgC8a).mpr ⟨List.Mem.head _, rfl, by decide⟩
  · intro a ha
    have := (getHTTPAliasesGroupedByHost_spec wAliasesC8 (by decide) "site.example" "r2"
      a).mp ha
    rcases this with ⟨hmem, _, hpass⟩
    rcases List.mem_cons.mp hmem with h1 | h1
    · have hks : ("r2" : String) = "r1" := congrArg Prod.fst h1
      exact absurd hks (by decide)
    · rcases List.mem_cons.mp h1 with h2 | h2
      · have ha2 : a = wCfgC8b := congrArg Prod.snd h2
        rw [ha2] at hpass
        exact hpass rfl
      · cases h2

/-- The head of a descending-sorted list bounds every member. -/
theorem sorted_head_max {x : String} {t : List String}
    (hs : List.Sorted geStr (x :: t)) : ∀ j ∈ x :: t, j ≤ x := by
  intro j hj
  rcases List.mem_cons.mp hj with h1 | h1
  · exact le_of_eq h1
  · exact List.rel_of_sorted_cons hs j h1

/-- In a descending-sorted list, `find?` returns the greatest element
satisfying the predicate. -/
theorem find?_sorted_max {p : String → Bool} :
    ∀ {l : List String} {k : String}, List.Sorted geStr l → l.find? p = some k →
      ∀ j ∈ l, p j = true → j ≤ k := by
  intro l
  induction l with
  | nil => intro k _ hf; cases hf
  | cons x t ih =>
    intro k hs hf j hj hpj
    by_cases hx : p x
    · rw [List.find?_cons_of_pos _ hx] at hf
      have hk : k = x := (Option.some.inj hf).symm
      subst hk
      exact sorted_head_max hs j hj
    · rw [List.find?_cons_of_neg _ hx] at hf
      rcases List.mem_cons.mp hj with h1 | h1
      · rw [h1] at hpj
        exact absurd hpj (by simp [hx])
      · exact ih hs.of_cons hf j h1 hpj

/-- The empty string is lexicographically least. -/
theorem empty_string_le (s : String) : "" ≤ s :=
  String.le_iff_toList_le.mpr List.nil_le

/-- The scan predicate of `getPrimaryAliasKey` fails everywhere when
no alias terminates TLS. -/
theorem lookupCfg_not_terminating (aliases : List (String × ServiceAliasConfig))
    (hnone : ∀ p ∈ aliases, isTerminatingCfg p.2 = false) (z : String) :
    isTerminatingCfg (lookupCfg aliases z) = false := by
  unfold lookupCfg
  cases hl : List.lookup z aliases with
  | none => decide
  | some b => simpa using hnone (z, b) (mem_of_lookup_eq_some hl)

/-- C2: with nodup keys, `getPrimaryAliasKey` returns the empty string
for an empty group, the key of a singleton group, and for groups of
two or more aliases the lexicographically greatest key among aliases
with edge or reencrypt termination, or the greatest key overall when
no alias terminates TLS. -/
theorem getPrimaryAliasKey_spec (aliases : List (String × ServiceAliasConfig))
    (hnd : (aliases.map Prod.fst).Nodup) :
    (aliases = [] → getPrimaryAliasKey aliases = "") ∧
    (∀ k a, aliases = [(k, a)] → getPrimaryAliasKey aliases = k) ∧
    (2 ≤ aliases.length → (∀ p ∈ aliases, isTerminatingCfg p.2 = false) →
      getPrimaryAliasKey aliases ∈ aliases.map Prod.fst ∧
      ∀ p ∈ aliases, p.1 ≤ getPrimaryAliasKey aliases) ∧
    (2 ≤ aliases.length → ∀ q ∈ aliases, isTerminatingCfg q.2 = true →
      ∃ b, (getPrimaryAliasKey aliases, b) ∈ aliases ∧ isTerminatingCfg b = true ∧
        ∀ p ∈ aliases, isTerminatingCfg p.2 = true →
          p.1 ≤ getPrimaryAliasKey aliases) := by
  refine ⟨?_, ?_, ?_, ?_⟩
  · intro h
    subst h
    rfl
  · intro k a h
    subst h
    rfl
  · intro hlen hnone
    rcases aliases with _ | ⟨x, _ | ⟨y, rest⟩⟩
    · simp at hlen
    · simp at hlen
    · set al := x :: y :: rest with hal
      have hperm : List.Perm
          (sortDescStr (List.replicate al.length "" ++ al.map Prod.fst))
          (List.replicate al.length "" ++ al.map Prod.fst) :=
        List.perm_insertionSort geStr _
      have hsor : List.Sorted geStr
          (sortDescStr (List.replicate al.length "" ++ al.map Prod.fst)) :=
        List.sorted_insertionSort geStr _
      have hfind : (sortDescStr (List.replicate al.length "" ++ al.map Prod.fst)).find?
          (fun k => isTerminatingCfg (lookupCfg al k)) = none := by
        rw [List.find?_eq_none]
        intro z _
        simp [lookupCfg_not_terminating al hnone z]
      have hres : getPrimaryAliasKey al =
          (sortDescStr (List.replicate al.length "" ++ al.map Prod.fst)).headD "" := by
        show getPrimaryAliasKeyMulti al = _
        unfold getPrimaryAliasKeyMulti
        rw [hfind]
      rw [hres]
      cases hss : sortDescStr (List.replicate al.length "" ++ al.map Prod.fst) with
      | nil =>
        exfalso
        have := hperm.length_eq
        rw [hss, hal] at this
        simp only [List.length_nil, List.length_append, List.length_replicate,
          List.length_map, List.length_cons] at this
        omega
      | cons s0 stail =>
        have hhead : ∀ j ∈ s0 :: stail, j ≤ s0 := sorted_head_max (hss ▸ hsor)
        have hmemkeys : ∀ j ∈ al.map Prod.fst, j ≤ s0 := by
          intro j hj
          apply hhead
          rw [← hss]
          exact hperm.mem_iff.mpr (List.mem_append.mpr (Or.inr hj))
        have hs0mem : s0 ∈ List.replicate al.length "" ++ al.map Prod.fst := by
          apply hperm.mem_iff.mp
          rw [hss]
          exact List.mem_cons_self _ _
        have hs0 : s0 ∈ al.map Prod.fst := by
          rcases List.mem_append.mp hs0mem with h1 | h1
          · exfalso
            have hs0e : s0 = "" := List.eq_of_mem_replicate h1
            have hxmem : x.1 ∈ List.map Prod.fst al :=
              List.mem_map.mpr ⟨x, List.mem_cons_self _ _, rfl⟩
            have hymem : y.1 ∈ List.map Prod.fst al :=
              List.mem_map.mpr ⟨y, List.mem_cons_of_mem x (List.mem_cons_self _ _), rfl⟩
            have hx1 : x.1 = "" :=
              le_antisymm (hs0e ▸ hmemkeys x.1 hxmem) (empty_string_le _)
            have hy1 : y.1 = "" :=
              le_antisymm (hs0e ▸ hmemkeys y.1 hymem) (empty_string_le _)
            have : x.1 ∉ (y :: rest).map Prod.fst := (List.nodup_cons.mp hnd).1
            apply this
            rw [hx1, ← hy1]
            simp
          · exact h1
        constructor
        · simpa using hs0
        · intro p hp
          exact hmemkeys p.1 (List.mem_map.mpr ⟨p, hp, rfl⟩)
  · intro hlen q hq hqt
    rcases aliases with _ | ⟨x, _ | ⟨y, rest⟩⟩
    · simp at hlen
    · simp at hlen
    · set al := x :: y :: rest with hal
      have hperm : List.Perm
          (sortDescStr (List.replicate al.length "" ++ al.map Prod.fst))
          (List.replicate al.length "" ++ al.map Prod.fst) :=
        List.perm_insertionSort geStr _
      have hsor : List.Sorted geStr
          (sortDescStr (List.replicate al.length "" ++ al.map Prod.fst)) :=
        List.sorted_insertionSort geStr _
      have hlookup : ∀ p ∈ al, lookupCfg al p.1 = p.2 := by
        intro p hp
        obtain ⟨p1, p2⟩ := p
        unfold lookupCfg
        rw [lookup_eq_some_of_mem hnd hp]
        rfl
      have hq1mem : q.1 ∈ sortDescStr (List.replicate al.length "" ++ al.map Prod.fst) := by
        apply hperm.mem_iff.mpr
        exact List.mem_append.mpr (Or.inr (List.mem_map.mpr ⟨q, hq, rfl⟩))
      cases hf : (sortDescStr (List.replicate al.length "" ++ al.map Prod.fst)).find?
          (fun k => isTerminatingCfg (lookupCfg al k)) with
      | none =>
        exfalso
        have := List.find?_eq_none.mp hf q.1 hq1mem
        rw [hlookup q hq] at this
        simp [hqt] at this
      | some k =>
        have hpk : isTerminatingCfg (lookupCfg al k) = true := by
          simpa using List.find?_some hf
        have hres : getPrimaryAliasKey al = k := by
          show getPrimaryAliasKeyMulti al = k
          unfold getPrimaryAliasKeyMulti
          rw [hf]
        cases hl : List.lookup k al with
        | none =>
          exfalso
          unfold lookupCfg at hpk
          rw [hl] at hpk
          simp at hpk
          exact absurd hpk (by decide)
        | some b =>
          refine ⟨b, ?_, ?_, ?_⟩
          · rw [hres]
            exact mem_of_lookup_eq_some hl
          · unfold lookupCfg at hpk
            rw [hl] at hpk
            exact hpk
          · intro p hp hpt
            rw [hres]
            apply find?_sorted_max hsor hf p.1
            · exact hperm.mem_iff.mpr
                (List.mem_append.mpr (Or.inr (List.mem_map.mpr ⟨p, hp, rfl⟩)))
            · rw [hlookup p hp]
              exact hpt

/-- Passthrough alias at key `b` for the primary-key witness. -/
def wCfgC2pass : ServiceAliasConfig :=
  { zeroServiceAliasConfig with
    Host := "site.example"
    TLSTermination := TLSTerminationPassthrough }

/-- Edge alias at key `a` for the primary-key witness. -/
def wCfgC2edge : ServiceAliasConfig :=
  { zeroServiceAliasConfig with
    Host := "site.example"
    TLSTermination := TLSTerminationEdge }

/-- Group with one edge and one passthrough alias. -/
def wAliasesC2a : List (String × ServiceAliasConfig) :=
  [("b", wCfgC2pass), ("a", wCfgC2edge)]

/-- Group with two passthrough aliases. -/
def wAliasesC2b : List (String × ServiceAliasConfig) :=
  [("b", wCfgC2pass), ("a", wCfgC2pass)]

theorem getPrimaryAliasKey_spec_witness :
    getPrimaryAliasKey wAliasesC2a = "a" ∧
    (∃ b, (getPrimaryAliasKey wAliasesC2a, b) ∈ wAliasesC2a ∧
      isTerminatingCfg b = true ∧
      ∀ p ∈ wAliasesC2a, isTerminatingCfg p.2 = true →
        p.1 ≤ getPrimaryAliasKey wAliasesC2a) ∧
    getPrimaryAliasKey wAliasesC2b = "b" ∧
    getPrimaryAliasKey wAliasesC2b ∈ wAliasesC2b.map Prod.fst := by
  refine ⟨by rfl, ?_, by rfl, ?_⟩
  · exact (getPrimaryAliasKey_spec wAliasesC2a (by decide)).2.2.2 (by decide)
      ("a", wCfgC2edge) (List.Mem.tail _ (List.Mem.head _)) (by decide)
  · exact ((getPrimaryAliasKey_spec wAliasesC2b (by decide)).2.2.1 (by decide)
      (by decide)).1

/-- A self-returning `dropWhile` rejects its head. -/
theorem dropWhile_self_head {p : Char → Bool} {c : Char} {cs : List Char}
    (h : List.dropWhile p (c :: cs) = c :: cs) : p c = false := by
  cases hc : p c
  · rfl
  · exfalso
    rw [List.dropWhile_cons_of_pos hc] at h
    have hle := (List.dropWhile_sublist p :
      List.Sublist (List.dropWhile p cs) cs).length_le
    have := congrArg List.length h
    simp at this
    omega

/-- When trimming is the identity, neither the first nor the last
character of a non-empty string is whitespace. -/
theorem trim_eq_self_edges {s : String} (h : goTrimSpace s = s)
    {c : Char} {cs : List Char} (hdata : s.data = c :: cs) :
    goIsSpace c = false ∧ goIsSpace (s.data.getLastD ' ') = false := by
  have hdd : ((s.data.dropWhile goIsSpace).reverse.dropWhile goIsSpace).reverse = s.data := by
    have := congrArg String.data h
    simpa [goTrimSpace] using this
  have hlen2 : ((s.data.dropWhile goIsSpace).reverse.dropWhile goIsSpace).length =
      s.data.length := by
    rw [← List.length_reverse ((s.data.dropWhile goIsSpace).reverse.dropWhile goIsSpace), hdd]
  have hle1 : (s.data.dropWhile goIsSpace).length ≤ s.data.length :=
    (List.dropWhile_sublist goIsSpace).length_le
  have hle2 : ((s.data.dropWhile goIsSpace).reverse.dropWhile goIsSpace).length ≤
      (s.data.dropWhile goIsSpace).length := by
    have := (List.dropWhile_sublist goIsSpace :
      List.Sublist (List.dropWhile goIsSpace (s.data.dropWhile goIsSpace).reverse)
        (s.data.dropWhile goIsSpace).reverse).length_le
    rwa [List.length_reverse] at this
  have hlen1 : (s.data.dropWhile goIsSpace).length = s.data.length := by omega
  have houter : s.data.dropWhile goIsSpace = s.data :=
    (List.dropWhile_sublist goIsSpace).eq_of_length hlen1
  have hinner : s.data.reverse.dropWhile goIsSpace = s.data.reverse := by
    rw [houter] at hdd
    rw [← List.reverse_inj, List.reverse_reverse] at hdd
    exact hdd
  constructor
  · have h5 : List.dropWhile goIsSpace (c :: cs) = c :: cs := by
      rw [← hdata]
      exact houter
    exact dropWhile_self_head h5
  · cases hrev : s.data.reverse with
    | nil =>
      exfalso
      rw [List.reverse_eq_nil_iff] at hrev
      rw [hrev] at hdata
      cases hdata
    | cons h0 t0 =>
      have hh0 : goIsSpace h0 = false := by
        have h6 : List.dropWhile goIsSpace (h0 :: t0) = h0 :: t0 := by
          rw [← hrev]
          exact hinner
        exact dropWhile_self_head h6
      have hlast : s.data.getLastD ' ' = h0 := by
        rw [List.getLastD_eq_getLast?, ← List.head?_reverse, hrev]
        rfl
      rw [hlast]
      exact hh0

/-- C4: `parseIPList` returns the empty string when the input trims to
empty or carries any leading or trailing whitespace; otherwise it
keeps, in original order, exactly the whitespace-separated tokens the
IP or CIDR validators accept, re-joined by single spaces, and returns
the empty string when no token is valid. -/
theorem parseIPList_spec (validIP validCIDR : String → Bool) (list : String) :
    (goTrimSpace list = "" → parseIPList validIP validCIDR list = "") ∧
    (∀ c cs, list.data = c :: cs →
      (goIsSpace c = true ∨ goIsSpace (list.data.getLastD ' ') = true) →
      parseIPList validIP validCIDR list = "") ∧
    (goTrimSpace list = list → list ≠ "" →
      (((goFields list).filter (fun t => validIP t || validCIDR t)) = [] →
        parseIPList validIP validCIDR list = "") ∧
      (((goFields list).filter (fun t => validIP t || validCIDR t)) ≠ [] →
        parseIPList validIP validCIDR list =
          String.intercalate " "
            ((goFields list).filter (fun t => validIP t || validCIDR t)))) := by
  refine ⟨?_, ?_, ?_⟩
  · intro h
    simp [parseIPList, h]
  · intro c cs hdata hsp
    by_cases h1 : goTrimSpace list = ""
    · simp [parseIPList, h1]
    · have hne : goTrimSpace list ≠ list := by
        intro heq
        rcases trim_eq_self_edges heq hdata with ⟨hh, hl⟩
        rcases hsp with hs | hs
        · rw [hh] at hs; cases hs
        · rw [hl] at hs; cases hs
      simp [parseIPList, h1, hne]
  · intro htrim hnel
    have hne2 : ¬(goTrimSpace list ≠ list) := fun h => h htrim
    have htrimne : goTrimSpace list ≠ "" := by rw [htrim]; exact hnel
    have hbody :
        (fun (acc : List String) ip =>
          if validIP ip then acc ++ [ip]
          else if validCIDR ip then acc ++ [ip] else acc) =
        (fun (acc : List String) ip =>
          if (validIP ip || validCIDR ip) then acc ++ [ip] else acc) := by
      funext acc ip
      by_cases hv : validIP ip
      · simp [hv]
      · by_cases hc : validCIDR ip <;> simp [hv, hc]
    have hfold : (goFields list).foldl
        (fun acc ip =>
          if validIP ip then acc ++ [ip]
          else if validCIDR ip then acc ++ [ip] else acc) [] =
        (goFields list).filter (fun t => validIP t || validCIDR t) := by
      rw [hbody]
      simpa using foldl_filter_append (fun t => validIP t || validCIDR t) (goFields list) []
    have hstep : parseIPList validIP validCIDR list =
        (if ((goFields list).filter (fun t => validIP t || validCIDR t)).length = 0 then ""
          else String.intercalate " "
            ((goFields list).filter (fun t => validIP t || validCIDR t))) := by
      simp only [parseIPList]
      rw [if_neg htrimne, if_neg hne2, hfold]
    constructor
    · intro hfil
      rw [hstep, hfil]
      rfl
    · intro hfil
      rw [hstep, if_neg (fun h => hfil (List.length_eq_zero.mp h))]

theorem parseIPList_spec_witness :
    parseIPList ipv4Valid ipv4CIDRValid " 10.0.0.1 " = "" ∧
    parseIPList ipv4Valid ipv4CIDRValid "10.0.0.1 10.0.0.0/8 bogus" =
      "10.0.0.1 10.0.0.0/8" :=
  ⟨(parseIPList_spec ipv4Valid ipv4CIDRValid " 10.0.0.1 ").2.1 ' '
      "10.0.0.1 ".data (by decide) (Or.inl (by decide)),
    (((parseIPList_spec ipv4Valid ipv4CIDRValid "10.0.0.1 10.0.0.0/8 bogus").2.2
      (by decide) (by decide)).2 (by decide)).trans (by decide)⟩

/-- A match at the current position is a match. -/
theorem matchW_here {lit : List Char} {e : Bool} {s : List Char}
    (h : matchHere lit e s = true) : matchW lit e s = true := by
  cases s with
  | nil => exact h
  | cons c rest => simp [matchW, h]

/-- Soundness of the wildcard denotation: any dot-free prefix, the
literal, and an admissible tail do match. -/
theorem matchW_of_split (lit : List Char) (e : Bool) :
    ∀ (a b : List Char), (∀ c ∈ a, c ≠ '.') → wildTailOk e b = true →
      matchW lit e (a ++ (lit ++ b)) = true
  | [], b, _, hb => by
    apply matchW_here
    unfold matchHere
    rw [List.nil_append]
    rw [List.isPrefixOf_iff_prefix.mpr (List.prefix_append lit b)]
    rw [List.drop_left]
    simp [hb]
  | c :: a', b, ha, hb => by
    have hc : c ≠ '.' := ha c (List.mem_cons_self _ _)
    have ih := matchW_of_split lit e a' b
      (fun d hd => ha d (List.mem_cons_of_mem _ hd)) hb
    simp [matchW, List.cons_append, hc, ih]

/-- Completeness of the wildcard denotation: a match decomposes into a
dot-free prefix, the literal, and an admissible tail. -/
theorem matchW_split (lit : List Char) (e : Bool) :
    ∀ s : List Char, matchW lit e s = true →
      ∃ a b, s = a ++ (lit ++ b) ∧ (∀ c ∈ a, c ≠ '.') ∧ wildTailOk e b = true
  | [], h => by
    have h2 : matchHere lit e [] = true := h
    unfold matchHere at h2
    simp only [Bool.and_eq_true] at h2
    rcases h2 with ⟨hpre, htail⟩
    have hnil : lit = [] := List.prefix_nil.mp (List.isPrefixOf_iff_prefix.mp hpre)
    refine ⟨[], [], ?_, by simp, ?_⟩
    · rw [hnil]; rfl
    · rw [hnil] at htail
      simpa using htail
  | c :: rest, h => by
    have h2 : matchHere lit e (c :: rest) = true ∨
        (decide (c ≠ '.') && matchW lit e rest) = true := by
      have h3 := h
      unfold matchW at h3
      simpa only [Bool.or_eq_true] using h3
    rcases h2 with hhere | hstep
    · unfold matchHere at hhere
      simp only [Bool.and_eq_true] at hhere
      rcases hhere with ⟨hpre, htail⟩
      obtain ⟨t, ht⟩ := List.isPrefixOf_iff_prefix.mp hpre
      refine ⟨[], t, ?_, by simp, ?_⟩
      · rw [List.nil_append, ← ht]
      · rw [← ht, List.drop_left] at htail
        exact htail
    · simp only [Bool.and_eq_true] at hstep
      rcases hstep with ⟨hc, hm⟩
      obtain ⟨a, b, heq, ha, hb⟩ := matchW_split lit e rest hm
      refine ⟨c :: a, b, ?_, ?_, hb⟩
      · rw [List.cons_append, heq]
      · intro d hd
        rcases List.mem_cons.mp hd with h1 | h1
        · rw [h1]; exact of_decide_eq_true hc
        · exact ha d h1

/-- C7: when the hostname has no dot-separated parent the generator
returns the literal `hostname ++ path`; otherwise it returns the
anchored wildcard pattern over the quoted `"." ++ domain ++ path`
literal, whose matching semantics (`matchW`) accepts exactly the
strings made of a dot-free leading label, that same parent domain and
path, and an admissible suffix (none for exact paths, a `/`-suffix
otherwise). -/
theorem genSubdomainWildcardRegexp_spec (hostname path : String) (exactPath : Bool) :
    (getDomainForHost hostname = "" →
      genSubdomainWildcardRegexp hostname path exactPath = hostname ++ path) ∧
    (getDomainForHost hostname ≠ "" →
      genSubdomainWildcardRegexp hostname path exactPath =
        wildcardPatternOf ("." ++ getDomainForHost hostname ++ path) exactPath ∧
      (∀ label suffix : String, (∀ c ∈ label.data, c ≠ '.') →
        wildTailOk exactPath suffix.data = true →
        matchWStr ("." ++ getDomainForHost hostname ++ path) exactPath
          (label ++ ("." ++ getDomainForHost hostname ++ path) ++ suffix) = true) ∧
      (∀ s : String,
        matchWStr ("." ++ getDomainForHost hostname ++ path) exactPath s = true →
        ∃ a b : String, s = a ++ ("." ++ getDomainForHost hostname ++ path) ++ b ∧
          (∀ c ∈ a.data, c ≠ '.') ∧ wildTailOk exactPath b.data = true)) := by
  constructor
  · intro h
    unfold genSubdomainWildcardRegexp
    rw [if_pos (by rw [h]; rfl)]
  · intro h
    refine ⟨?_, ?_, ?_⟩
    · unfold genSubdomainWildcardRegexp wildcardPatternOf
      rw [if_neg (fun hz => h (string_length_zero_iff.mp hz))]
    · intro label suffix hlabel hsuffix
      unfold matchWStr
      have hdata : (label ++ ("." ++ getDomainForHost hostname ++ path) ++ suffix).data =
          label.data ++ (("." ++ getDomainForHost hostname ++ path).data ++ suffix.data) := by
        simp [String.data_append, List.append_assoc]
      rw [hdata]
      exact matchW_of_split _ exactPath label.data suffix.data hlabel hsuffix
    · intro s hs
      unfold matchWStr at hs
      obtain ⟨a, b, heq, ha, hb⟩ :=
        matchW_split ("." ++ getDomainForHost hostname ++ path).data exactPath s.data hs
      refine ⟨⟨a⟩, ⟨b⟩, ?_, ha, hb⟩
      apply String.ext
      rw [heq]
      simp [String.data_append, List.append_assoc]

theorem genSubdomainWildcardRegexp_spec_witness :
    genSubdomainWildcardRegexp "www.example.com" "/x" false =
      wildcardPatternOf ("." ++ getDomainForHost "www.example.com" ++ "/x") false ∧
    matchWStr ("." ++ getDomainForHost "www.example.com" ++ "/x") false
      ("api" ++ ("." ++ getDomainForHost "www.example.com" ++ "/x") ++ "/y") = true ∧
    genSubdomainWildcardRegexp "localhost" "/p" true = "localhost" ++ "/p" :=
  ⟨((genSubdomainWildcardRegexp_spec "www.example.com" "/x" false).2 (by decide)).1,
    ((genSubdomainWildcardRegexp_spec "www.example.com" "/x" false).2 (by decide)).2.1
      "api" "/y" (by decide) (by decide),
    (genSubdomainWildcardRegexp_spec "localhost" "/p" true).1 (by decide)⟩

end TemplateRouter
